import Mathlib

/-!
Shallow embedding of the race.ini interception logic of the acc-race-kiosk
repository.

The embedded code:
- `RaceIniHandler._modify_lines` / `_process_line` / `_is_section_header`
  (src/interceptor/main.py, lines 335-389) and the identical patch loop in
  `RaceIniHandler.modify_race_ini` (src/ac_nickname_interceptor.py, lines
  87-112): a single top-to-bottom scan over the file's lines that tracks the
  current INI section and rewrites `DRIVER_NAME=` lines in section `CAR_0`
  and `NAME=` lines in section `REMOTE`.
- the surrounding text pipeline: the file is read as a whole, split with
  Python's `splitlines(keepends=True)`, line-patched, and the patched lines
  are concatenated back (`"".join(lines)`).  `splitlinesK` models Python's
  splitlines with its full set of line boundaries (LF, VT, FF, CR, FS, GS,
  RS, NEL, LS, PS, and the CRLF pair), and `isPySpace` models the full
  whitespace set of Python's `str.strip()`.
- `RaceIniHandler.on_modified` / `_should_process_event` (src/interceptor/
  main.py, lines 252-289): the debounced, one-shot event handler.
- `RaceIniHandler.on_modified` of src/ac_nickname_interceptor.py (lines
  41-62): the kiosk event handler, which never disarms and re-reads the
  nickname on each accepted event.
- `_read_race_ini` / `_write_race_ini` (src/interceptor/main.py, lines
  308-333 and 391-417): the bounded retry loops around file I/O, modelled
  with an explicit per-attempt failure oracle.

Python strings are modelled as `List Char`; wall-clock timestamps as `ℚ`.
-/

/-- One line (or any piece) of text, as a list of characters. -/
abbrev Line := List Char

/-- The whitespace stripped by Python's `str.strip()`: exactly the
codepoints on which `str.isspace()` holds — ASCII whitespace, the C0
separators 1C-1F, NEL (85), NBSP (A0), Ogham space (1680), the Unicode
spaces 2000-200A, the line and paragraph separators 2028/2029, and the
spaces 202F, 205F and 3000. -/
def isPySpace (c : Char) : Bool :=
  c == ' ' || c == '\t' || c == '\n' || c == '\r' || c == '\x0b' ||
  c == '\x0c' || c == '\x1c' || c == '\x1d' || c == '\x1e' || c == '\x1f' ||
  c == '\x85' || c == '\xa0' || c == '\u1680' ||
  (0x2000 ≤ c.toNat && c.toNat ≤ 0x200a) ||
  c == '\u2028' || c == '\u2029' || c == '\u202f' || c == '\u205f' ||
  c == '\u3000'

/-- The characters at which Python's `str.splitlines()` ends a line (CRLF
being the only two-character terminator): LF, VT, FF, CR, FS, GS, RS, NEL,
LS and PS.  Each of them is also `str.strip()` whitespace. -/
def isBreakChar (c : Char) : Bool :=
  c == '\n' || c == '\x0b' || c == '\x0c' || c == '\r' ||
  c == '\x1c' || c == '\x1d' || c == '\x1e' ||
  c == '\x85' || c == '\u2028' || c == '\u2029'

/-- Leading-whitespace removal (Python `lstrip`). -/
def pyStripLeft (l : Line) : Line := l.dropWhile isPySpace

/-- Trailing-whitespace removal (Python `rstrip`). -/
def pyStripRight (l : Line) : Line := (l.reverse.dropWhile isPySpace).reverse

/-- Python `line.strip()`. -/
def pyStrip (l : Line) : Line := pyStripRight (pyStripLeft l)

/-- Python `line.replace(chr(0), rest-of-nothing)`: drop every null byte. -/
def stripNulls (l : Line) : Line := l.filter (fun c => !(c == '\x00'))

/-- Section name `CAR_0` targeted by the patcher. -/
def CAR0 : Line := ['C', 'A', 'R', '_', '0']

/-- Section name `REMOTE` targeted by the patcher. -/
def REMOTE_SECTION : Line := ['R', 'E', 'M', 'O', 'T', 'E']

/-- Key prefix `DRIVER_NAME=` matched inside section CAR_0. -/
def DRIVER_KEY : Line := ['D', 'R', 'I', 'V', 'E', 'R', '_', 'N', 'A', 'M', 'E', '=']

/-- Key prefix `NAME=` matched inside section REMOTE. -/
def NAME_KEY : Line := ['N', 'A', 'M', 'E', '=']

/-- `RaceIniHandler._is_section_header`: the stripped line starts with an
opening bracket and ends with a closing bracket. -/
def is_section_header (l : Line) : Bool :=
  ['['].isPrefixOf (pyStrip l) && [']'].isSuffixOf (pyStrip l)

/-- The section name taken from a header line: `line.strip()` with the first
and last characters removed. -/
def section_name (l : Line) : Line := ((pyStrip l).drop 1).dropLast

/-- `RaceIniHandler._process_line`: rewrite a `DRIVER_NAME=` line inside
section CAR_0 or a `NAME=` line inside section REMOTE, otherwise return the
line unchanged.  The argument is the already null-stripped line. -/
def process_line (name : Line) (sec : Option Line) (l : Line) : Line :=
  if sec = some CAR0 ∧ DRIVER_KEY.isPrefixOf (pyStrip l) = true then
    DRIVER_KEY ++ name ++ ['\n']
  else if sec = some REMOTE_SECTION ∧ NAME_KEY.isPrefixOf (pyStrip l) = true then
    NAME_KEY ++ name ++ ['\n']
  else l

/-- The loop body of `RaceIniHandler._modify_lines`, with the running
`current_section` made explicit.  Each line is first null-stripped; a header
line updates the section and is copied, any other line goes through
`process_line`. -/
def modify_lines_from (name : Line) : Option Line → List Line → List Line
  | _, [] => []
  | sec, l :: ls =>
    if is_section_header (stripNulls l) = true then
      stripNulls l :: modify_lines_from name (some (section_name (stripNulls l))) ls
    else
      process_line name sec (stripNulls l) :: modify_lines_from name sec ls

/-- `RaceIniHandler._modify_lines`: the scan starts with no current section. -/
def modify_lines (name : Line) (lines : List Line) : List Line :=
  modify_lines_from name none lines

/-- Worker for `splitlinesK`: `cur` holds the reversed accumulated body of
the line being scanned.  Models Python `str.splitlines(keepends=True)`:
a line ends at every `isBreakChar` character, CR followed by LF forming a
single CRLF terminator. -/
def splitlinesAux : Line → Line → List Line
  | cur, [] => if cur = [] then [] else [cur.reverse]
  | cur, c :: rest =>
    if c = '\r' then
      match rest with
      | '\n' :: rest2 => (cur.reverse ++ ['\r', '\n']) :: splitlinesAux [] rest2
      | [] => (cur.reverse ++ ['\r']) :: splitlinesAux [] []
      | d :: rest2 => (cur.reverse ++ ['\r']) :: splitlinesAux [] (d :: rest2)
    else if isBreakChar c then (cur.reverse ++ [c]) :: splitlinesAux [] rest
    else splitlinesAux (c :: cur) rest

/-- Python `text.splitlines(keepends=True)`. -/
def splitlinesK (s : List Char) : List Line := splitlinesAux [] s

/-- The whole patch pipeline applied to the file text, as `_inject_player_name`
composes it: split into lines with keepends, run the modify loop, join the
lines back (`"".join(lines)`). -/
def patch_text (name : Line) (s : List Char) : List Char :=
  (modify_lines name (splitlinesK s)).flatten

/-- The `current_section` value in force when the scan of `modify_lines_from`
reaches line `i`, starting from section context `sec`. -/
def ctxFrom : Option Line → List Line → ℕ → Option Line
  | sec, [], _ => sec
  | sec, _ :: _, 0 => sec
  | sec, l :: ls, i + 1 =>
    ctxFrom
      (if is_section_header (stripNulls l) = true then
        some (section_name (stripNulls l))
      else sec) ls i

/-- Whether one (null-stripped) line is rewritten by `process_line` in section
context `sec`. -/
def lineTarget (sec : Option Line) (l : Line) : Bool :=
  (decide (sec = some CAR0) && DRIVER_KEY.isPrefixOf (pyStrip l)) ||
  (decide (sec = some REMOTE_SECTION) && NAME_KEY.isPrefixOf (pyStrip l))

/-- Whether any line of the document is rewritten by the scan, mirroring the
section tracking of `modify_lines_from`. -/
def any_target : Option Line → List Line → Bool
  | _, [] => false
  | sec, l :: ls =>
    if is_section_header (stripNulls l) = true then
      any_target (some (section_name (stripNulls l))) ls
    else
      lineTarget sec (stripNulls l) || any_target sec ls

/-- No line-break character occurs in the text. -/
def noBreak (l : Line) : Bool := l.all (fun c => !(isBreakChar c))

/-- Structural invariant of `splitlinesK` output: every line is a break-free
body followed by one terminator (a single break character, or CRLF), except
that the final line may be unterminated and nonempty. -/
inductive SplitInv : List Line → Prop where
  | nil : SplitInv []
  | single (b : Line) : noBreak b = true → b ≠ [] → SplitInv [b]
  | cons (b t : Line) (ls : List Line) :
      noBreak b = true →
      ((∃ c, isBreakChar c = true ∧ t = [c]) ∨ t = ['\r', '\n']) →
      SplitInv ls →
      SplitInv ((b ++ t) :: ls)

/-- `TIMING.DEBOUNCE_SECONDS` of src/interceptor/main.py (0.5); the kiosk
script hardcodes the same 0.5 literal. -/
def DEBOUNCE_SECONDS : ℚ := 1 / 2

/-- `TIMING.MAX_FILE_RETRIES` of src/interceptor/main.py. -/
def MAX_FILE_RETRIES : ℕ := 8

/-- A watchdog filesystem event as seen by `on_modified`: directory flag,
whether `src_path` ends with the watched filename, and the wall-clock time at
which the handler runs. -/
structure FsEvent where
  isDirectory : Bool
  isRaceIni : Bool
  time : ℚ

/-- The mutable state of `RaceIniHandler` in src/interceptor/main.py:
`_last_modified_time` (initially 0) and `_injection_completed` (initially
false). -/
structure MainState where
  lastModifiedTime : ℚ
  injectionCompleted : Bool

/-- What one delivered event led to: ignored without any file access, or an
injection attempt that failed, or one that succeeded.  The completion
callback runs exactly on `injectSuccess`, the failure callback exactly on
`injectFail`; on `ignored` the handler returns before `_inject_player_name`,
so the file is neither read nor written. -/
inductive MainAction where
  | ignored
  | injectFail
  | injectSuccess
deriving DecidableEq

/-- `RaceIniHandler._should_process_event`: reject an event within the
debounce window of the previously accepted one, otherwise accept it and
record its time. -/
def should_process_event (s : MainState) (t : ℚ) : Bool × MainState :=
  if t - s.lastModifiedTime < DEBOUNCE_SECONDS then (false, s)
  else (true, { s with lastModifiedTime := t })

/-- `RaceIniHandler.on_modified` of src/interceptor/main.py.  `injectOk`
abstracts whether the `_inject_player_name` read-patch-write sequence would
succeed for this event. -/
def on_modified (s : MainState) (e : FsEvent) (injectOk : Bool) :
    MainState × MainAction :=
  if e.isDirectory || s.injectionCompleted then (s, MainAction.ignored)
  else if e.isRaceIni = false then (s, MainAction.ignored)
  else if (should_process_event s e.time).1 = false then
    ((should_process_event s e.time).2, MainAction.ignored)
  else if injectOk then
    ({ (should_process_event s e.time).2 with injectionCompleted := true },
      MainAction.injectSuccess)
  else ((should_process_event s e.time).2, MainAction.injectFail)

/-- Deliver a list of events (each with its injection outcome) to the
handler, returning the per-event actions. -/
def runMain (s : MainState) : List (FsEvent × Bool) → List MainAction
  | [] => []
  | (e, ok) :: evs =>
    (on_modified s e ok).2 :: runMain (on_modified s e ok).1 evs

/-- The completion callback fires for an event iff its injection succeeded. -/
def completion_fires (a : MainAction) : Bool := a == MainAction.injectSuccess

/-- The failure callback (when set) fires for an event iff its injection
attempt failed. -/
def failure_fires (a : MainAction) : Bool := a == MainAction.injectFail

/-- The mutable state of the kiosk `RaceIniHandler`
(src/ac_nickname_interceptor.py): `last_modified_time` (initially 0),
together with the bytes of the watched race.ini file. -/
structure KioskState where
  lastModifiedTime : ℚ
  file : List Char

/-- The observable outcome of one kiosk event: the successor state, whether
`modify_race_ini` ran (it reads, patches and writes the file), and whether
the completion callback fired. -/
structure KioskOut where
  next : KioskState
  didModify : Bool
  didComplete : Bool

/-- `NicknameInterceptorUI.get_current_nickname`: the registered racer if one
is set (nonempty), otherwise the stripped entry-field text. -/
def get_current_nickname (currentRacer entryText : Line) : Line :=
  if currentRacer ≠ [] then currentRacer else pyStrip entryText

/-- `RaceIniHandler.on_modified` of src/ac_nickname_interceptor.py: filter
directory events and foreign paths, debounce at 0.5s, then — only if the
nickname callback returns a nonempty string — patch the file and fire the
completion callback.  This handler has no completion flag: it stays armed. -/
def kiosk_on_modified (nickname : Line) (s : KioskState) (e : FsEvent) :
    KioskOut :=
  if e.isDirectory then ⟨s, false, false⟩
  else if e.isRaceIni then
    if e.time - s.lastModifiedTime < DEBOUNCE_SECONDS then ⟨s, false, false⟩
    else if nickname ≠ [] then
      ⟨⟨e.time, patch_text nickname s.file⟩, true, true⟩
    else ⟨⟨e.time, s.file⟩, false, false⟩
  else ⟨s, false, false⟩

/-- Deliver a list of events to the kiosk handler. -/
def runKiosk (nickname : Line) (s : KioskState) : List FsEvent → List KioskOut
  | [] => []
  | e :: evs =>
    kiosk_on_modified nickname s e ::
      runKiosk nickname (kiosk_on_modified nickname s e).next evs

/-- Number of events of a kiosk run that actually patched the file. -/
def count_injections (outs : List KioskOut) : ℕ :=
  (outs.filter (fun o => o.didModify)).length

/-- The retry loop of `RaceIniHandler._read_race_ini`: `failAt i` is the
error raised by attempt `i` (`none` = the read succeeds and returns the file
content).  First argument of the recursion is the current attempt index, the
second the number of attempts left; `(_, 0)` mirrors the unreachable
`return []` after the loop. -/
def read_loop {ε : Type} (failAt : ℕ → Option ε) (content : List Line) :
    ℕ → ℕ → Except ε (List Line)
  | _, 0 => Except.ok []
  | i, r + 1 =>
    match failAt i with
    | none => Except.ok content
    | some e =>
      if 0 < r then read_loop failAt content (i + 1) r else Except.error e

/-- `RaceIniHandler._read_race_ini` with `maxRetries` attempts. -/
def read_race_ini {ε : Type} (failAt : ℕ → Option ε) (content : List Line)
    (maxRetries : ℕ) : Except ε (List Line) :=
  read_loop failAt content 0 maxRetries

/-- The retry loop of `RaceIniHandler._write_race_ini`, also tracking the
on-disk bytes: a successful attempt replaces them with `content`; with zero
attempts the loop body never runs and the function returns silently. -/
def write_loop {ε : Type} (failAt : ℕ → Option ε) (disk content : List Char) :
    ℕ → ℕ → (List Char) × Except ε Unit
  | _, 0 => (disk, Except.ok ())
  | i, r + 1 =>
    match failAt i with
    | none => (content, Except.ok ())
    | some e =>
      if 0 < r then write_loop failAt disk content (i + 1) r
      else (disk, Except.error e)

/-- `RaceIniHandler._write_race_ini` with `maxRetries` attempts. -/
def write_race_ini {ε : Type} (failAt : ℕ → Option ε) (disk content : List Char)
    (maxRetries : ℕ) : (List Char) × Except ε Unit :=
  write_loop failAt disk content 0 maxRetries

/-- The player name of the end-to-end example. -/
def aliceName : Line := "Alice".toList

/-- Input document of the end-to-end example of claim C1. -/
def c1doc : List Char := "[CAR_0]\nDRIVER_NAME=OldName\n[REMOTE]\nNAME=OldName\n".toList

/-- Expected output of the end-to-end example of claim C1. -/
def c1out : List Char := "[CAR_0]\nDRIVER_NAME=Alice\n[REMOTE]\nNAME=Alice\n".toList

/-- A document with a null byte and no patch target. -/
def c2input : List Char := "A\x00=1\n".toList

/-- A player name containing a line break. -/
def c7name : Line := "A\nB".toList

/-- A player name containing a vertical tab, one of the non-LF/CR
characters at which Python splitlines also breaks. -/
def c7nameVT : Line := "A\x0bB".toList

/-- A minimal CAR_0 document. -/
def c7input : List Char := "[CAR_0]\nDRIVER_NAME=x\n".toList

/-- A DRIVER_NAME key line containing a null byte, before any section. -/
def c8line : Line := "DRIVER_NAME=Old\x00\n".toList

/-- A null-free DRIVER_NAME key line, before any section. -/
def w8line : Line := "DRIVER_NAME=Old\n".toList

/-- Another player name used in witnesses. -/
def bobName : Line := "Bob".toList

/-- A null-free document without any patch target. -/
def w2input : List Char := "[OTHER]\nKEY=1\nDRIVER_NAME=x\n".toList

/-- A freshly armed handler state: last-modified time 0, not completed. -/
def ms0 : MainState := ⟨0, false⟩

/-- A qualifying event at time 1. -/
def ev1 : FsEvent := ⟨false, true, 1⟩

/-- A qualifying event 100ms after `ev1`. -/
def ev2 : FsEvent := ⟨false, true, 11 / 10⟩

/-- A qualifying event 200ms after `ev1`. -/
def ev3 : FsEvent := ⟨false, true, 12 / 10⟩

/-- A qualifying event at time 2. -/
def ev6 : FsEvent := ⟨false, true, 2⟩

/-- Three rapid events for the same logical write, all of which would
succeed if an injection were attempted. -/
def c3events : List (FsEvent × Bool) := [(ev1, true), (ev2, true), (ev3, true)]

/-- A fresh kiosk handler state over the example document. -/
def ks0 : KioskState := ⟨0, c1doc⟩

/-- A whitespace-only entry-field text. -/
def spacesEntry : Line := [' ', ' ']

section Theorems

theorem stripNulls_append (a b : Line) :
    stripNulls (a ++ b) = stripNulls a ++ stripNulls b := by
  simp [stripNulls]

theorem stripNulls_eq_self {l : Line} (h : '\x00' ∉ l) : stripNulls l = l := by
  apply List.filter_eq_self.mpr
  intro a ha
  simp only [Bool.not_eq_true', beq_eq_false_iff_ne]
  exact fun hx => h (hx ▸ ha)

theorem not_mem_stripNulls (l : Line) : '\x00' ∉ stripNulls l := by
  intro h
  rcases List.mem_filter.mp h with ⟨-, hb⟩
  simp at hb

theorem stripNulls_stable (l : Line) : stripNulls (stripNulls l) = stripNulls l :=
  stripNulls_eq_self (not_mem_stripNulls l)

theorem noBreak_stripNulls {l : Line} (h : noBreak l = true) :
    noBreak (stripNulls l) = true := by
  rw [noBreak, List.all_eq_true] at h ⊢
  exact fun c hc => h c (List.mem_of_mem_filter hc)

theorem noBreak_mem {l : Line} (h : noBreak l = true) {c : Char} (hc : c ∈ l) :
    isBreakChar c = false := by
  rw [noBreak, List.all_eq_true] at h
  have := h c hc
  rwa [Bool.not_eq_true'] at this

theorem not_break_ne {c : Char} (h : isBreakChar c = false) :
    ¬ c = '\n' ∧ ¬ c = '\r' := by
  constructor <;> rintro rfl <;> simp [isBreakChar] at h

theorem break_space {c : Char} (h : isBreakChar c = true) :
    isPySpace c = true := by
  simp only [isBreakChar, Bool.or_eq_true, beq_iff_eq, or_assoc] at h
  rcases h with rfl | rfl | rfl | rfl | rfl | rfl | rfl | rfl | rfl | rfl <;>
    decide

theorem break_not_null {c : Char} (h : isBreakChar c = true) :
    (c == '\x00') = false := by
  rw [beq_eq_false_iff_ne]
  rintro rfl
  simp [isBreakChar] at h

theorem pyStripRight_append_spaces {t : Line} (ht : ∀ c ∈ t, isPySpace c = true)
    (y : Line) : pyStripRight (y ++ t) = pyStripRight y := by
  unfold pyStripRight
  rw [List.reverse_append, List.dropWhile_append_of_pos]
  intro a ha
  exact ht a (List.mem_reverse.mp ha)

theorem pyStrip_append_spaces {t : Line} (ht : ∀ c ∈ t, isPySpace c = true)
    (x : Line) : pyStrip (x ++ t) = pyStrip x := by
  unfold pyStrip pyStripLeft
  rw [List.dropWhile_append]
  by_cases h : (List.dropWhile isPySpace x).isEmpty
  · rw [if_pos h]
    have h2 : List.dropWhile isPySpace t = [] := by
      rw [List.dropWhile_eq_nil_iff]
      exact ht
    rw [List.isEmpty_iff] at h
    rw [h2, h]
  · rw [if_neg h]
    exact pyStripRight_append_spaces ht _

theorem pyStripRight_append_last {d : Char} (hd : isPySpace d = false)
    (k x : Line) : pyStripRight ((k ++ [d]) ++ x) = (k ++ [d]) ++ pyStripRight x := by
  unfold pyStripRight
  rw [List.reverse_append, List.reverse_append, List.dropWhile_append]
  by_cases h : (List.dropWhile isPySpace x.reverse).isEmpty
  · rw [if_pos h]
    rw [List.isEmpty_iff] at h
    simp [List.dropWhile_cons, hd, h]
  · rw [if_neg h]
    simp [List.reverse_append]

theorem pyStripLeft_cons_nospace {c : Char} (hc : isPySpace c = false)
    (x : Line) : pyStripLeft (c :: x) = c :: x := by
  simp [pyStripLeft, List.dropWhile_cons, hc]

theorem pyStrip_driver_append (x : Line) :
    pyStrip (DRIVER_KEY ++ x) = DRIVER_KEY ++ pyStripRight x := by
  have h1 : DRIVER_KEY ++ x = 'D' :: (List.tail DRIVER_KEY ++ x) := rfl
  rw [pyStrip, h1, pyStripLeft_cons_nospace (by decide), ← h1]
  have h2 : DRIVER_KEY = (List.dropLast DRIVER_KEY) ++ ['='] := rfl
  rw [h2, pyStripRight_append_last (by decide)]

theorem pyStrip_namek_append (x : Line) :
    pyStrip (NAME_KEY ++ x) = NAME_KEY ++ pyStripRight x := by
  have h1 : NAME_KEY ++ x = 'N' :: (List.tail NAME_KEY ++ x) := rfl
  rw [pyStrip, h1, pyStripLeft_cons_nospace (by decide), ← h1]
  have h2 : NAME_KEY = (List.dropLast NAME_KEY) ++ ['='] := rfl
  rw [h2, pyStripRight_append_last (by decide)]

theorem not_header_of_driver {l : Line}
    (h : DRIVER_KEY.isPrefixOf (pyStrip l) = true) :
    is_section_header l = false := by
  rw [List.isPrefixOf_iff_prefix] at h
  obtain ⟨t, ht⟩ := h
  unfold is_section_header
  rw [← ht, DRIVER_KEY]
  simp [List.isPrefixOf]

theorem not_header_of_namek {l : Line}
    (h : NAME_KEY.isPrefixOf (pyStrip l) = true) :
    is_section_header l = false := by
  rw [List.isPrefixOf_iff_prefix] at h
  obtain ⟨t, ht⟩ := h
  unfold is_section_header
  rw [← ht, NAME_KEY]
  simp [List.isPrefixOf]

theorem isPrefixOf_append_self (k x : Line) : k.isPrefixOf (k ++ x) = true := by
  rw [List.isPrefixOf_iff_prefix]
  exact List.prefix_append k x

/-- The scan of `modify_lines_from` emits exactly one line per input line. -/
theorem modify_lines_from_length (name : Line) :
    ∀ (sec : Option Line) (ls : List Line),
      (modify_lines_from name sec ls).length = ls.length := by
  intro sec ls
  induction ls generalizing sec with
  | nil => rfl
  | cons l ls ih =>
    by_cases h : is_section_header (stripNulls l) = true
    · simp [modify_lines_from, h, ih]
    · simp [modify_lines_from, h, ih]

/-- Any line whose scan context is CAR_0 (resp. REMOTE) and whose stripped
form starts with the driver (resp. name) key is emitted as the rewritten
key line, for an arbitrary starting context. -/
theorem modify_from_rewrites (name : Line) :
    ∀ (ls : List Line) (sec : Option Line) (i : ℕ) (hi : i < ls.length),
      (ctxFrom sec ls i = some CAR0 →
        DRIVER_KEY.isPrefixOf (pyStrip (stripNulls (ls.get ⟨i, hi⟩))) = true →
        (modify_lines_from name sec ls)[i]? = some (DRIVER_KEY ++ name ++ ['\n'])) ∧
      (ctxFrom sec ls i = some REMOTE_SECTION →
        NAME_KEY.isPrefixOf (pyStrip (stripNulls (ls.get ⟨i, hi⟩))) = true →
        (modify_lines_from name sec ls)[i]? = some (NAME_KEY ++ name ++ ['\n'])) := by
  intro ls
  induction ls with
  | nil => intro sec i hi; exact absurd hi (by simp)
  | cons l ls ih =>
    intro sec i hi
    cases i with
    | zero =>
      constructor
      · intro hsec hpre
        have hctx : sec = some CAR0 := hsec
        have hh : is_section_header (stripNulls l) = false :=
          not_header_of_driver hpre
        simp only [modify_lines_from, hh, Bool.false_eq_true, if_false,
          List.getElem?_cons_zero, Option.some_inj]
        simp only [List.get] at hpre
        rw [process_line, if_pos ⟨hctx, hpre⟩]
      · intro hsec hpre
        have hctx : sec = some REMOTE_SECTION := hsec
        have hh : is_section_header (stripNulls l) = false :=
          not_header_of_namek hpre
        simp only [modify_lines_from, hh, Bool.false_eq_true, if_false,
          List.getElem?_cons_zero, Option.some_inj]
        simp only [List.get] at hpre
        rw [process_line]
        rw [if_neg, if_pos ⟨hctx, hpre⟩]
        rintro ⟨h1, -⟩
        rw [hctx] at h1
        exact absurd (Option.some_inj.mp h1) (by decide)
    | succ i =>
      have hi' : i < ls.length := by simpa using hi
      by_cases hh : is_section_header (stripNulls l) = true
      · have hctx : ∀ j, ctxFrom sec (l :: ls) (j + 1) =
            ctxFrom (some (section_name (stripNulls l))) ls j := by
          intro j; simp [ctxFrom, hh]
        have hout : modify_lines_from name sec (l :: ls) =
            stripNulls l ::
              modify_lines_from name (some (section_name (stripNulls l))) ls := by
          simp [modify_lines_from, hh]
        constructor
        · intro hsec hpre
          rw [hctx i] at hsec
          rw [hout, List.getElem?_cons_succ]
          exact (ih _ i hi').1 hsec hpre
        · intro hsec hpre
          rw [hctx i] at hsec
          rw [hout, List.getElem?_cons_succ]
          exact (ih _ i hi').2 hsec hpre
      · have hctx : ∀ j, ctxFrom sec (l :: ls) (j + 1) = ctxFrom sec ls j := by
          intro j; simp [ctxFrom, hh]
        have hout : modify_lines_from name sec (l :: ls) =
            process_line name sec (stripNulls l) ::
              modify_lines_from name sec ls := by
          simp [modify_lines_from, hh]
        constructor
        · intro hsec hpre
          rw [hctx i] at hsec
          rw [hout, List.getElem?_cons_succ]
          exact (ih _ i hi').1 hsec hpre
        · intro hsec hpre
          rw [hctx i] at hsec
          rw [hout, List.getElem?_cons_succ]
          exact (ih _ i hi').2 hsec hpre

/-- Claim C1: for every document and player name, every line whose section
context is CAR_0 and which (after null-stripping and whitespace-trimming)
begins with DRIVER_NAME= is replaced by the line DRIVER_NAME=(player name)LF,
and every line in context REMOTE beginning with NAME= is replaced by
NAME=(player name)LF — every matching occurrence, not only the first;
in particular the end-to-end example document is patched exactly as the
claim states. -/
theorem C1_every_match_rewritten :
    (∀ (name : Line) (doc : List Line) (i : ℕ) (hi : i < doc.length),
      (ctxFrom none doc i = some CAR0 →
        DRIVER_KEY.isPrefixOf (pyStrip (stripNulls (doc.get ⟨i, hi⟩))) = true →
        (modify_lines name doc)[i]? = some (DRIVER_KEY ++ name ++ ['\n'])) ∧
      (ctxFrom none doc i = some REMOTE_SECTION →
        NAME_KEY.isPrefixOf (pyStrip (stripNulls (doc.get ⟨i, hi⟩))) = true →
        (modify_lines name doc)[i]? = some (NAME_KEY ++ name ++ ['\n']))) ∧
    patch_text aliceName c1doc = c1out :=
  ⟨fun name doc i hi => modify_from_rewrites name doc none i hi, by decide⟩

/-- Witness for C1: in the concrete example document, line 1 (inside CAR_0)
is rewritten to DRIVER_NAME=Alice and line 3 (inside REMOTE) to NAME=Alice,
and the whole patched text is exactly the expected output. -/
theorem C1_every_match_rewritten_witness :
    (modify_lines aliceName (splitlinesK c1doc))[1]? =
      some (DRIVER_KEY ++ aliceName ++ ['\n']) ∧
    (modify_lines aliceName (splitlinesK c1doc))[3]? =
      some (NAME_KEY ++ aliceName ++ ['\n']) ∧
    patch_text aliceName c1doc = c1out :=
  ⟨(C1_every_match_rewritten.1 aliceName (splitlinesK c1doc) 1 (by decide)).1
      (by decide) (by decide),
   (C1_every_match_rewritten.1 aliceName (splitlinesK c1doc) 3 (by decide)).2
      (by decide) (by decide),
   C1_every_match_rewritten.2⟩

/-- Claim C9: the patcher preserves the line count: for every player name and
every input list of lines, the output list of `_modify_lines` has exactly the
same length; in particular empty input yields empty output. -/
theorem C9_length_preserved (name : Line) (doc : List Line) :
    (modify_lines name doc).length = doc.length :=
  modify_lines_from_length name none doc

theorem flatten_splitlinesAux (cur s : Line) :
    (splitlinesAux cur s).flatten = cur.reverse ++ s := by
  induction cur, s using splitlinesAux.induct with
  | case1 => simp [splitlinesAux]
  | case2 cur h => simp [splitlinesAux, h]
  | case3 cur rest2 ih => unfold splitlinesAux; simp [ih]
  | case4 cur ih => unfold splitlinesAux; simp [ih]
  | case5 cur d rest2 hd ih =>
    unfold splitlinesAux
    simp only [if_pos rfl]
    split <;> simp_all
  | case6 cur c rest hcr hbrk ih =>
    unfold splitlinesAux
    rw [if_neg hcr, if_pos hbrk]
    simp [ih]
  | case7 cur c rest hcr hbrk ih =>
    unfold splitlinesAux
    rw [if_neg hcr, if_neg hbrk]
    simp [ih]

/-- Joining the kept line terminators reproduces the split text exactly. -/
theorem flatten_splitlinesK (s : List Char) : (splitlinesK s).flatten = s := by
  simpa using flatten_splitlinesAux [] s

theorem process_line_of_no_target (name : Line) {sec : Option Line} {l : Line}
    (h : lineTarget sec l = false) : process_line name sec l = l := by
  have h1 : ¬(sec = some CAR0 ∧ DRIVER_KEY.isPrefixOf (pyStrip l) = true) := by
    rintro ⟨ha, hb⟩
    rw [lineTarget, ha] at h
    simp [hb] at h
  have h2 : ¬(sec = some REMOTE_SECTION ∧ NAME_KEY.isPrefixOf (pyStrip l) = true) := by
    rintro ⟨ha, hb⟩
    rw [lineTarget, ha] at h
    simp [hb] at h
  rw [process_line, if_neg h1, if_neg h2]

/-- On a null-free document with no patch target, the scan is the identity. -/
theorem modify_from_id (name : Line) :
    ∀ (ls : List Line) (sec : Option Line),
      (∀ l ∈ ls, '\x00' ∉ l) → any_target sec ls = false →
      modify_lines_from name sec ls = ls := by
  intro ls
  induction ls with
  | nil => intro sec _ _; rfl
  | cons l ls ih =>
    intro sec hnull htar
    have hl : stripNulls l = l := stripNulls_eq_self (hnull l (by simp))
    have hnull' : ∀ x ∈ ls, '\x00' ∉ x := fun x hx => hnull x (by simp [hx])
    simp only [any_target, hl] at htar
    simp only [modify_lines_from, hl]
    by_cases hh : is_section_header l = true
    · simp only [hh, if_true] at htar ⊢
      rw [ih _ hnull' htar]
    · simp only [hh, Bool.false_eq_true, if_false, Bool.or_eq_false_iff] at htar ⊢
      rw [ih _ hnull' htar.2, process_line_of_no_target name htar.1]

/-- Claim C2 is false as stated: this document contains a null byte and no
line matching a patch target, yet the patched output differs from the input
(the patcher strips null bytes from every line). -/
theorem C2_counterexample :
    any_target none (splitlinesK c2input) = false ∧
    patch_text aliceName c2input ≠ c2input := by decide

/-- Claim C2 (amended): for every input document that contains no null byte
and in which no line matches a patch target, the patcher's output is
byte-identical to its input, every line terminator included. -/
theorem C2_no_match_identity (name : Line) (s : List Char)
    (hnull : '\x00' ∉ s) (hmatch : any_target none (splitlinesK s) = false) :
    patch_text name s = s := by
  have hlines : ∀ l ∈ splitlinesK s, '\x00' ∉ l := by
    intro l hl hc
    apply hnull
    have hm : '\x00' ∈ (splitlinesK s).flatten := List.mem_flatten.mpr ⟨l, hl, hc⟩
    rwa [flatten_splitlinesK] at hm
  rw [patch_text, modify_lines, modify_from_id name _ none hlines hmatch,
    flatten_splitlinesK]

/-- Witness for the amended C2 on a concrete null-free no-target document. -/
theorem C2_no_match_identity_witness : patch_text bobName w2input = w2input :=
  C2_no_match_identity bobName w2input (by decide) (by decide)

theorem ctxFrom_some_ne_none :
    ∀ (ls : List Line) (b : Line) (i : ℕ), ctxFrom (some b) ls i ≠ none := by
  intro ls
  induction ls with
  | nil => intro b i; simp [ctxFrom]
  | cons l ls ih =>
    intro b i
    cases i with
    | zero => simp [ctxFrom]
    | succ i =>
      simp only [ctxFrom]
      split
      · exact ih _ i
      · exact ih _ i

theorem process_line_none (name l : Line) : process_line name none l = l := by
  have h1 : ¬((none : Option Line) = some CAR0 ∧
      DRIVER_KEY.isPrefixOf (pyStrip l) = true) := by
    rintro ⟨h, -⟩; exact Option.noConfusion h
  have h2 : ¬((none : Option Line) = some REMOTE_SECTION ∧
      NAME_KEY.isPrefixOf (pyStrip l) = true) := by
    rintro ⟨h, -⟩; exact Option.noConfusion h
  rw [process_line, if_neg h1, if_neg h2]

/-- A line scanned while the section context is still `none` is emitted as
its null-stripped self. -/
theorem modify_from_none_copies (name : Line) :
    ∀ (doc : List Line) (i : ℕ) (hi : i < doc.length),
      ctxFrom none doc i = none →
      is_section_header (stripNulls (doc.get ⟨i, hi⟩)) = false →
      (modify_lines_from name none doc)[i]? = some (stripNulls (doc.get ⟨i, hi⟩)) := by
  intro doc
  induction doc with
  | nil => intro i hi; exact absurd hi (by simp)
  | cons l ls ih =>
    intro i hi hctx hhd
    cases i with
    | zero =>
      simp only [List.get] at hhd
      simp [modify_lines_from, hhd, process_line_none]
    | succ i =>
      have hh : is_section_header (stripNulls l) = false := by
        by_contra hc
        rw [Bool.not_eq_false] at hc
        simp only [ctxFrom, hc, if_true] at hctx
        exact ctxFrom_some_ne_none ls _ i hctx
      simp only [ctxFrom, hh, Bool.false_eq_true, if_false] at hctx
      rw [modify_lines_from]
      simp only [hh, Bool.false_eq_true, if_false, List.getElem?_cons_succ]
      exact ih i (by simpa using hi) hctx hhd

/-- Claim C8 is false as stated: this key line sits before any section
header and is not itself a header, yet it is not copied through unchanged
(its null byte is removed). -/
theorem C8_counterexample :
    ctxFrom none [c8line] 0 = none ∧
    is_section_header (stripNulls c8line) = false ∧
    (modify_lines aliceName [c8line])[0]? ≠ some c8line := by decide

/-- Claim C8 (amended): a key line appearing before the first section header
is never rewritten with the injected name: it is copied through with only
its null bytes removed — hence byte-for-byte unchanged whenever it contains
no null byte. -/
theorem C8_before_header_copied (name : Line) (doc : List Line) (i : ℕ)
    (hi : i < doc.length) (hctx : ctxFrom none doc i = none)
    (hhd : is_section_header (stripNulls (doc.get ⟨i, hi⟩)) = false) :
    (modify_lines name doc)[i]? = some (stripNulls (doc.get ⟨i, hi⟩)) :=
  modify_from_none_copies name doc i hi hctx hhd

/-- Witness for the amended C8: a null-free DRIVER_NAME line before any
header is emitted exactly as its (unchanged) null-stripped self. -/
theorem C8_before_header_copied_witness :
    (modify_lines aliceName [w8line])[0]? = some (stripNulls w8line) :=
  C8_before_header_copied aliceName [w8line] 0 (by decide) (by decide) (by decide)

theorem on_modified_completed {s : MainState} {e : FsEvent} {ok : Bool}
    (h : s.injectionCompleted = true) :
    on_modified s e ok = (s, MainAction.ignored) := by
  unfold on_modified
  rw [if_pos]
  simp [h]

theorem should_process_event_completed (s : MainState) (t : ℚ) :
    (should_process_event s t).2.injectionCompleted = s.injectionCompleted := by
  unfold should_process_event
  split <;> rfl

theorem on_modified_success_completed {s : MainState} {e : FsEvent} {ok : Bool}
    (h : (on_modified s e ok).2 = MainAction.injectSuccess) :
    (on_modified s e ok).1.injectionCompleted = true := by
  unfold on_modified at h ⊢
  split_ifs at h ⊢ <;> simp_all

theorem on_modified_not_success_completed {s : MainState} {e : FsEvent}
    {ok : Bool} (hs : s.injectionCompleted = false)
    (h : (on_modified s e ok).2 ≠ MainAction.injectSuccess) :
    (on_modified s e ok).1.injectionCompleted = false := by
  unfold on_modified at h ⊢
  split_ifs at h ⊢ <;>
    simp_all [should_process_event_completed]

theorem runMain_completed {s : MainState} (h : s.injectionCompleted = true) :
    ∀ evs, runMain s evs = List.replicate evs.length MainAction.ignored := by
  intro evs
  induction evs with
  | nil => rfl
  | cons p evs ih =>
    obtain ⟨e, ok⟩ := p
    rw [runMain, on_modified_completed h]
    rw [List.length_cons, List.replicate_succ]
    exact congrArg _ ih

theorem runMain_length : ∀ (evs : List (FsEvent × Bool)) (s : MainState),
    (runMain s evs).length = evs.length := by
  intro evs
  induction evs with
  | nil => intro s; rfl
  | cons p evs ih =>
    obtain ⟨e, ok⟩ := p
    intro s
    rw [runMain, List.length_cons, List.length_cons, ih]

theorem runMain_success_suffix :
    ∀ (evs : List (FsEvent × Bool)) (s : MainState) (i j : ℕ), i < j →
      j < evs.length →
      (runMain s evs)[i]? = some MainAction.injectSuccess →
      (runMain s evs)[j]? = some MainAction.ignored := by
  intro evs
  induction evs with
  | nil => intro s i j _ hj; simp at hj
  | cons p evs ih =>
    obtain ⟨e, ok⟩ := p
    intro s i j hij hj hi
    obtain ⟨j', rfl⟩ : ∃ j', j = j' + 1 := ⟨j - 1, by omega⟩
    rw [runMain] at hi ⊢
    rw [List.getElem?_cons_succ]
    cases i with
    | zero =>
      rw [List.getElem?_cons_zero, Option.some_inj] at hi
      have hc : (on_modified s e ok).1.injectionCompleted = true :=
        on_modified_success_completed hi
      rw [runMain_completed hc]
      rw [List.getElem?_replicate, if_pos (by simpa using hj)]
    | succ i =>
      rw [List.getElem?_cons_succ] at hi
      exact ih _ i j' (by omega) (by simpa using hj) hi

theorem runMain_count_le_one :
    ∀ (evs : List (FsEvent × Bool)) (s : MainState),
      (runMain s evs).count MainAction.injectSuccess ≤ 1 := by
  intro evs
  induction evs with
  | nil => intro s; simp [runMain]
  | cons p evs ih =>
    obtain ⟨e, ok⟩ := p
    intro s
    rw [runMain, List.count_cons]
    by_cases ha : (on_modified s e ok).2 = MainAction.injectSuccess
    · have hc : (on_modified s e ok).1.injectionCompleted = true :=
        on_modified_success_completed ha
      rw [runMain_completed hc, List.count_replicate]
      simp [ha]
    · have := ih (on_modified s e ok).1
      simp only [beq_iff_eq, ha, if_false]
      omega

/-- Claim C3: in any armed session, the completion callback fires at most
once — exactly once as soon as some event's injection succeeds — and every
event delivered after a successful injection is ignored outright (the
handler returns before any read, patch or write). -/
theorem C3_one_injection_per_session (s : MainState)
    (evs : List (FsEvent × Bool)) (harmed : s.injectionCompleted = false) :
    (runMain s evs).countP completion_fires ≤ 1 ∧
    (MainAction.injectSuccess ∈ runMain s evs →
      (runMain s evs).countP completion_fires = 1) ∧
    (∀ i j, i < j → j < evs.length →
      (runMain s evs)[i]? = some MainAction.injectSuccess →
      (runMain s evs)[j]? = some MainAction.ignored) := by
  have hcount : (runMain s evs).countP completion_fires =
      (runMain s evs).count MainAction.injectSuccess := rfl
  refine ⟨by rw [hcount]; exact runMain_count_le_one evs s, ?_, ?_⟩
  · intro hmem
    rw [hcount]
    have h1 := runMain_count_le_one evs s
    have h2 : 0 < (runMain s evs).count MainAction.injectSuccess :=
      List.count_pos_iff.mpr hmem
    omega
  · exact fun i j hij hj hi => runMain_success_suffix evs s i j hij hj hi

/-- Witness for C3: three rapid successful-write events starting from a
fresh state produce exactly one completion, and the event after the
successful one is ignored. -/
theorem C3_one_injection_per_session_witness :
    (runMain ms0 c3events).countP completion_fires = 1 ∧
    (runMain ms0 c3events)[1]? = some MainAction.ignored := by
  have h1 : on_modified ms0 ev1 true =
      ({ lastModifiedTime := 1, injectionCompleted := true },
        MainAction.injectSuccess) := by
    unfold on_modified should_process_event
    norm_num [ms0, ev1, DEBOUNCE_SECONDS]
  have hrun : runMain ms0 c3events =
      [MainAction.injectSuccess, MainAction.ignored, MainAction.ignored] := by
    show runMain ms0 [(ev1, true), (ev2, true), (ev3, true)] = _
    rw [runMain, h1]
    rw [runMain, on_modified_completed rfl]
    rw [runMain, on_modified_completed rfl]
    rfl
  refine ⟨(C3_one_injection_per_session ms0 c3events rfl).2.1 ?_,
    (C3_one_injection_per_session ms0 c3events rfl).2.2 0 1 (by norm_num)
      (by norm_num [c3events]) ?_⟩
  · rw [hrun]; simp
  · rw [hrun]; rfl

/-- Claim C4: if a qualifying event's patch-and-write sequence fails, the
completion callback does not fire (the failure callback does), the session
is not marked complete, and the watcher stays armed: any later qualifying
event outside the debounce window triggers another injection attempt. -/
theorem C4_failure_keeps_armed (s : MainState) (e : FsEvent)
    (harmed : s.injectionCompleted = false) (hdir : e.isDirectory = false)
    (hpath : e.isRaceIni = true)
    (ht : ¬ e.time - s.lastModifiedTime < DEBOUNCE_SECONDS) :
    (on_modified s e false).2 = MainAction.injectFail ∧
    completion_fires (on_modified s e false).2 = false ∧
    failure_fires (on_modified s e false).2 = true ∧
    (on_modified s e false).1.injectionCompleted = false ∧
    (∀ (e2 : FsEvent) (ok2 : Bool), e2.isDirectory = false →
      e2.isRaceIni = true →
      ¬ e2.time - (on_modified s e false).1.lastModifiedTime < DEBOUNCE_SECONDS →
      (on_modified (on_modified s e false).1 e2 ok2).2 ≠ MainAction.ignored) := by
  have hstep : on_modified s e false =
      ({ lastModifiedTime := e.time, injectionCompleted := false },
        MainAction.injectFail) := by
    unfold on_modified should_process_event
    simp [hdir, harmed, hpath, ht]
  refine ⟨by rw [hstep], by rw [hstep]; rfl, by rw [hstep]; rfl,
    by rw [hstep], ?_⟩
  intro e2 ok2 hdir2 hpath2 ht2
  rw [hstep] at ht2 ⊢
  unfold on_modified should_process_event
  simp only [hdir2, hpath2] at *
  cases ok2 <;> simp [ht2]

/-- Witness for C4: a failing injection at time 1 from a fresh state leaves
the watcher armed, and a qualifying event at time 2 is not ignored. -/
theorem C4_failure_keeps_armed_witness :
    (on_modified ms0 ev1 false).2 = MainAction.injectFail ∧
    (on_modified ms0 ev1 false).1.injectionCompleted = false ∧
    (on_modified (on_modified ms0 ev1 false).1 ev6 true).2 ≠
      MainAction.ignored := by
  have h := C4_failure_keeps_armed ms0 ev1 rfl rfl rfl
    (by norm_num [ms0, ev1, DEBOUNCE_SECONDS])
  exact ⟨h.1, h.2.2.2.1, h.2.2.2.2 ev6 true rfl rfl
    (by norm_num [ms0, ev1, ev6, DEBOUNCE_SECONDS, on_modified,
      should_process_event])⟩

/-- Claim C5: for the kiosk watcher (src/ac_nickname_interceptor.py), with a
registered nonempty nickname, two change events 100ms apart yield exactly one
processed injection (the second falls inside the 0.5s debounce window
measured from the previously accepted event), while two events 600ms apart
yield two processed injections. -/
theorem kiosk_step_inject {nickname : Line} {s : KioskState} {e : FsEvent}
    (hdir : e.isDirectory = false) (hpath : e.isRaceIni = true)
    (ht : ¬ e.time - s.lastModifiedTime < DEBOUNCE_SECONDS)
    (hn : nickname ≠ []) :
    kiosk_on_modified nickname s e =
      ⟨⟨e.time, patch_text nickname s.file⟩, true, true⟩ := by
  unfold kiosk_on_modified
  simp [hdir, hpath, ht, hn]

theorem kiosk_step_debounced {nickname : Line} {s : KioskState} {e : FsEvent}
    (hdir : e.isDirectory = false)
    (ht : e.time - s.lastModifiedTime < DEBOUNCE_SECONDS) :
    kiosk_on_modified nickname s e = ⟨s, false, false⟩ := by
  unfold kiosk_on_modified
  by_cases hp : e.isRaceIni = true <;> simp [hdir, hp, ht]

theorem C5_debounce_windows (nickname : Line) (f : List Char) (t : ℚ)
    (hn : nickname ≠ []) (ht : DEBOUNCE_SECONDS ≤ t) :
    count_injections (runKiosk nickname ⟨0, f⟩
      [⟨false, true, t⟩, ⟨false, true, t + 1 / 10⟩]) = 1 ∧
    count_injections (runKiosk nickname ⟨0, f⟩
      [⟨false, true, t⟩, ⟨false, true, t + 6 / 10⟩]) = 2 := by
  rw [DEBOUNCE_SECONDS] at ht
  have h1 : ¬ ((⟨false, true, t⟩ : FsEvent).time -
      (⟨0, f⟩ : KioskState).lastModifiedTime < DEBOUNCE_SECONDS) := by
    show ¬ (t - 0 < DEBOUNCE_SECONDS)
    rw [DEBOUNCE_SECONDS]
    intro hc
    linarith
  have st1 : kiosk_on_modified nickname ⟨0, f⟩ ⟨false, true, t⟩ =
      ⟨⟨t, patch_text nickname f⟩, true, true⟩ :=
    kiosk_step_inject rfl rfl h1 hn
  have h2 : (⟨false, true, t + 1 / 10⟩ : FsEvent).time -
      (⟨t, patch_text nickname f⟩ : KioskState).lastModifiedTime <
        DEBOUNCE_SECONDS := by
    show t + 1 / 10 - t < DEBOUNCE_SECONDS
    rw [DEBOUNCE_SECONDS]
    linarith
  have h3 : ¬ ((⟨false, true, t + 6 / 10⟩ : FsEvent).time -
      (⟨t, patch_text nickname f⟩ : KioskState).lastModifiedTime <
        DEBOUNCE_SECONDS) := by
    show ¬ (t + 6 / 10 - t < DEBOUNCE_SECONDS)
    rw [DEBOUNCE_SECONDS]
    intro hc
    linarith
  constructor
  · rw [runKiosk, st1, runKiosk, kiosk_step_debounced rfl h2, runKiosk]
    rfl
  · rw [runKiosk, st1, runKiosk,
      kiosk_step_inject rfl rfl h3 hn, runKiosk]
    rfl

/-- Witness for C5: concrete run at t = 1 with nickname Bob. -/
theorem C5_debounce_windows_witness :
    count_injections (runKiosk bobName ⟨0, c1doc⟩
      [⟨false, true, 1⟩, ⟨false, true, 1 + 1 / 10⟩]) = 1 ∧
    count_injections (runKiosk bobName ⟨0, c1doc⟩
      [⟨false, true, 1⟩, ⟨false, true, 1 + 6 / 10⟩]) = 2 :=
  C5_debounce_windows bobName c1doc 1 (by decide)
    (by norm_num [DEBOUNCE_SECONDS])

/-- Claim C10: in the kiosk interceptor, when no racer is registered and the
entry field is empty or whitespace-only, a qualifying modification event
performs no injection: `modify_race_ini` is not called, the file bytes are
unchanged, and the completion callback does not fire. -/
theorem C10_empty_nickname_no_injection (racer entry : Line) (s : KioskState)
    (e : FsEvent) (hracer : racer = []) (hentry : pyStrip entry = [])
    (hdir : e.isDirectory = false) (hpath : e.isRaceIni = true)
    (ht : ¬ e.time - s.lastModifiedTime < DEBOUNCE_SECONDS) :
    (kiosk_on_modified (get_current_nickname racer entry) s e).didModify = false ∧
    (kiosk_on_modified (get_current_nickname racer entry) s e).didComplete = false ∧
    (kiosk_on_modified (get_current_nickname racer entry) s e).next.file = s.file := by
  have hnick : get_current_nickname racer entry = [] := by
    rw [get_current_nickname, hracer]
    simp [hentry]
  simp [kiosk_on_modified, hnick, hdir, hpath, ht]

/-- Witness for C10: whitespace-only entry, no racer, qualifying event at
time 1 over the example file. -/
theorem C10_empty_nickname_no_injection_witness :
    (kiosk_on_modified (get_current_nickname [] spacesEntry) ks0 ev1).didModify
        = false ∧
    (kiosk_on_modified (get_current_nickname [] spacesEntry) ks0 ev1).next.file
        = ks0.file :=
  ⟨(C10_empty_nickname_no_injection [] spacesEntry ks0 ev1 rfl (by decide)
      rfl rfl (by norm_num [ks0, ev1, DEBOUNCE_SECONDS])).1,
   (C10_empty_nickname_no_injection [] spacesEntry ks0 ev1 rfl (by decide)
      rfl rfl (by norm_num [ks0, ev1, DEBOUNCE_SECONDS])).2.2⟩

theorem read_loop_success {ε : Type} (failAt : ℕ → Option ε)
    (content : List Line) :
    ∀ (r i : ℕ), (∃ k < r, failAt (i + k) = none) →
      read_loop failAt content i r = Except.ok content := by
  intro r
  induction r with
  | zero => intro i h; obtain ⟨k, hk, -⟩ := h; omega
  | succ r ih =>
    intro i h
    rw [read_loop]
    split
    · rfl
    · rename_i e hf
      obtain ⟨k, hk, hke⟩ := h
      cases k with
      | zero => rw [Nat.add_zero] at hke; rw [hf] at hke; exact absurd hke (by simp)
      | succ k =>
        have hr : 0 < r := by omega
        rw [if_pos hr]
        exact ih (i + 1) ⟨k, by omega, by rw [← hke]; ring_nf⟩

theorem read_loop_all_fail {ε : Type} (failAt : ℕ → Option ε)
    (content : List Line) :
    ∀ (r i : ℕ), 0 < r → (∀ k < r, failAt (i + k) ≠ none) →
      ∃ e, failAt (i + r - 1) = some e ∧
        read_loop failAt content i r = Except.error e := by
  intro r
  induction r with
  | zero => intro i h; omega
  | succ r ih =>
    intro i _ hall
    rw [read_loop]
    split
    · rename_i hf
      exact absurd hf (hall 0 (by omega))
    · rename_i e hf
      cases Nat.eq_zero_or_pos r with
      | inl hr0 =>
        subst hr0
        exact ⟨e, by simpa using hf, by simp⟩
      | inr hr =>
        rw [if_pos hr]
        obtain ⟨e2, he2, hrun⟩ :=
          ih (i + 1) hr (fun k hk => by
            have := hall (k + 1) (by omega)
            rwa [show i + (k + 1) = i + 1 + k by ring] at this)
        exact ⟨e2, by rwa [show i + (r + 1) - 1 = i + 1 + r - 1 by omega],
          hrun⟩

theorem write_loop_success {ε : Type} (failAt : ℕ → Option ε)
    (disk content : List Char) :
    ∀ (r i : ℕ), (∃ k < r, failAt (i + k) = none) →
      write_loop failAt disk content i r = (content, Except.ok ()) := by
  intro r
  induction r with
  | zero => intro i h; obtain ⟨k, hk, -⟩ := h; omega
  | succ r ih =>
    intro i h
    rw [write_loop]
    split
    · rfl
    · rename_i e hf
      obtain ⟨k, hk, hke⟩ := h
      cases k with
      | zero => rw [Nat.add_zero] at hke; rw [hf] at hke; exact absurd hke (by simp)
      | succ k =>
        have hr : 0 < r := by omega
        rw [if_pos hr]
        exact ih (i + 1) ⟨k, by omega, by rw [← hke]; ring_nf⟩

theorem write_loop_all_fail {ε : Type} (failAt : ℕ → Option ε)
    (disk content : List Char) :
    ∀ (r i : ℕ), 0 < r → (∀ k < r, failAt (i + k) ≠ none) →
      ∃ e, failAt (i + r - 1) = some e ∧
        write_loop failAt disk content i r = (disk, Except.error e) := by
  intro r
  induction r with
  | zero => intro i h; omega
  | succ r ih =>
    intro i _ hall
    rw [write_loop]
    split
    · rename_i hf
      exact absurd hf (hall 0 (by omega))
    · rename_i e hf
      cases Nat.eq_zero_or_pos r with
      | inl hr0 =>
        subst hr0
        exact ⟨e, by simpa using hf, by simp⟩
      | inr hr =>
        rw [if_pos hr]
        obtain ⟨e2, he2, hrun⟩ :=
          ih (i + 1) hr (fun k hk => by
            have := hall (k + 1) (by omega)
            rwa [show i + (k + 1) = i + 1 + k by ring] at this)
        exact ⟨e2, by rwa [show i + (r + 1) - 1 = i + 1 + r - 1 by omega],
          hrun⟩

/-- Claim C6: the read and write retry loops retry through per-attempt
failures: if any of the n attempts succeeds before they are exhausted, the
read returns the full content (resp. the write returns success and the disk
holds the patched bytes) and no error surfaces; if all n attempts fail, the
last attempt's failure propagates as the fatal error. -/
theorem C6_retry_contract {ε : Type} (failR failW : ℕ → Option ε)
    (content : List Line) (disk patched : List Char) (n : ℕ) :
    ((∃ i < n, failR i = none) →
      read_race_ini failR content n = Except.ok content) ∧
    (0 < n → (∀ i < n, failR i ≠ none) →
      ∃ e, failR (n - 1) = some e ∧
        read_race_ini failR content n = Except.error e) ∧
    ((∃ i < n, failW i = none) →
      write_race_ini failW disk patched n = (patched, Except.ok ())) ∧
    (0 < n → (∀ i < n, failW i ≠ none) →
      ∃ e, failW (n - 1) = some e ∧
        write_race_ini failW disk patched n = (disk, Except.error e)) := by
  refine ⟨?_, ?_, ?_, ?_⟩
  · intro h
    exact read_loop_success failR content n 0 (by simpa using h)
  · intro hn hall
    have := read_loop_all_fail failR content n 0 hn (by simpa using hall)
    simpa using this
  · intro h
    exact write_loop_success failW disk patched n 0 (by simpa using h)
  · intro hn hall
    have := write_loop_all_fail failW disk patched n 0 hn (by simpa using hall)
    simpa using this

/-- Witness for C6: with the configured 8 attempts, a write that fails on
attempts 0 and 1 and succeeds on the third attempt returns success and the
disk ends up holding the patched content; a read whose attempts all fail
surfaces the last error. -/
theorem C6_retry_contract_witness :
    write_race_ini (fun i => if i < 2 then some 0 else none) w2input c1out
        MAX_FILE_RETRIES = (c1out, Except.ok ()) ∧
    (∃ e, (fun _ : ℕ => (some 7 : Option ℕ)) (MAX_FILE_RETRIES - 1) = some e ∧
      read_race_ini (fun _ => some 7) (splitlinesK c1doc) MAX_FILE_RETRIES =
        Except.error e) :=
  ⟨(C6_retry_contract (fun _ => some 7) (fun i => if i < 2 then some 0 else none)
      (splitlinesK c1doc) w2input c1out MAX_FILE_RETRIES).2.2.1
      ⟨2, by decide, by decide⟩,
   (C6_retry_contract (fun _ => some 7) (fun i => if i < 2 then some 0 else none)
      (splitlinesK c1doc) w2input c1out MAX_FILE_RETRIES).2.1
      (by decide) (fun i _ => by simp)⟩

theorem noBreak_cons (c : Char) (l : Line) :
    noBreak (c :: l) = (!(isBreakChar c) && noBreak l) := by
  simp [noBreak]

theorem noBreak_append (a b : Line) :
    noBreak (a ++ b) = (noBreak a && noBreak b) := by
  simp [noBreak, List.all_append]

theorem noBreak_reverse (l : Line) : noBreak l.reverse = noBreak l := by
  simp [noBreak]

theorem splitlinesAux_cons_other {c : Char} (hb : isBreakChar c = false)
    (cur rest : Line) :
    splitlinesAux cur (c :: rest) = splitlinesAux (c :: cur) rest := by
  conv_lhs => unfold splitlinesAux
  rw [if_neg (not_break_ne hb).2, if_neg (by rw [hb]; exact Bool.false_ne_true)]

theorem splitlinesAux_cons_break {c : Char} (hc : isBreakChar c = true)
    (hcr : ¬ c = '\r') (cur rest : Line) :
    splitlinesAux cur (c :: rest) =
      (cur.reverse ++ [c]) :: splitlinesAux [] rest := by
  conv_lhs => unfold splitlinesAux
  rw [if_neg hcr, if_pos hc]

theorem splitlinesAux_cons_crlf (cur rest : Line) :
    splitlinesAux cur ('\r' :: '\n' :: rest) =
      (cur.reverse ++ ['\r', '\n']) :: splitlinesAux [] rest := by
  conv_lhs => unfold splitlinesAux
  rw [if_pos rfl]
  rfl

theorem splitlinesAux_cons_cr_nil (cur : Line) :
    splitlinesAux cur ['\r'] = [cur.reverse ++ ['\r']] := by
  conv_lhs => unfold splitlinesAux
  rw [if_pos rfl]
  rfl

theorem splitlinesAux_cons_cr {d : Char} (hd : ¬ d = '\n') (cur rest : Line) :
    splitlinesAux cur ('\r' :: d :: rest) =
      (cur.reverse ++ ['\r']) :: splitlinesAux [] (d :: rest) := by
  conv_lhs => unfold splitlinesAux
  rw [if_pos rfl]
  split
  · rename_i r2 heq
    rw [List.cons_eq_cons] at heq
    exact absurd heq.1 hd
  · rename_i heq
    exact absurd heq (by simp)
  · rename_i d2 r2 hne heq
    rw [List.cons_eq_cons] at heq
    rw [heq.1, heq.2]

theorem splitlinesAux_scan : ∀ {b : Line}, noBreak b = true → ∀ (cur s : Line),
    splitlinesAux cur (b ++ s) = splitlinesAux (b.reverse ++ cur) s := by
  intro b
  induction b with
  | nil => intro _ cur s; simp
  | cons c b ih =>
    intro h cur s
    rw [noBreak_cons, Bool.and_eq_true, Bool.not_eq_true'] at h
    rw [List.cons_append, splitlinesAux_cons_other h.1, ih h.2]
    simp

theorem splitlinesK_noBreak {x : Line} (hx : noBreak x = true) :
    splitlinesK x = if x = [] then [] else [x] := by
  rw [splitlinesK, show x = x ++ [] from (List.append_nil x).symm,
    splitlinesAux_scan hx]
  unfold splitlinesAux
  simp

theorem splitlinesK_body_break {b : Line} (hb : noBreak b = true) {c : Char}
    (hc : isBreakChar c = true) (hcr : ¬ c = '\r') (T : Line) :
    splitlinesK (b ++ c :: T) = (b ++ [c]) :: splitlinesK T := by
  rw [splitlinesK, splitlinesAux_scan hb, splitlinesAux_cons_break hc hcr]
  simp [splitlinesK]

theorem splitlinesK_body_crlf {b : Line} (hb : noBreak b = true) (T : Line) :
    splitlinesK (b ++ '\r' :: '\n' :: T) = (b ++ ['\r', '\n']) :: splitlinesK T := by
  rw [splitlinesK, splitlinesAux_scan hb, splitlinesAux_cons_crlf]
  simp [splitlinesK]

theorem splitlinesK_body_cr {b : Line} (hb : noBreak b = true) {T : Line}
    (hT : T.head? ≠ some '\n') :
    splitlinesK (b ++ '\r' :: T) = (b ++ ['\r']) :: splitlinesK T := by
  rw [splitlinesK, splitlinesAux_scan hb]
  cases T with
  | nil =>
    rw [splitlinesAux_cons_cr_nil]
    simp [splitlinesK, splitlinesAux]
  | cons d T' =>
    have hd : ¬ d = '\n' := by
      intro hdeq
      exact hT (by rw [hdeq]; rfl)
    rw [splitlinesAux_cons_cr hd]
    simp [splitlinesK]

theorem splitlinesAux_SplitInv : ∀ (cur s : Line), noBreak cur = true →
    SplitInv (splitlinesAux cur s) := by
  have hstep : ∀ (cur : Line) (t : Line), noBreak cur = true →
      ((∃ c, isBreakChar c = true ∧ t = [c]) ∨ t = ['\r', '\n']) →
      ∀ ls, SplitInv ls → SplitInv ((cur.reverse ++ t) :: ls) := by
    intro cur t hcur ht ls hls
    exact SplitInv.cons cur.reverse t ls (by rwa [noBreak_reverse]) ht hls
  intro cur s
  induction cur, s using splitlinesAux.induct with
  | case1 =>
    intro _
    unfold splitlinesAux
    exact SplitInv.nil
  | case2 cur h =>
    intro hcur
    unfold splitlinesAux
    rw [if_neg h]
    exact SplitInv.single cur.reverse (by rwa [noBreak_reverse])
      (by simpa using h)
  | case3 cur rest2 ih =>
    intro hcur
    rw [splitlinesAux_cons_crlf]
    exact hstep cur ['\r', '\n'] hcur (Or.inr rfl) _ (ih rfl)
  | case4 cur ih =>
    intro hcur
    rw [splitlinesAux_cons_cr_nil]
    exact hstep cur ['\r'] hcur (Or.inl ⟨'\r', by decide, rfl⟩) []
      SplitInv.nil
  | case5 cur d rest2 hd ih =>
    intro hcur
    rw [splitlinesAux_cons_cr (fun he => hd he)]
    exact hstep cur ['\r'] hcur (Or.inl ⟨'\r', by decide, rfl⟩) _ (ih rfl)
  | case6 cur c rest hcr hbrk ih =>
    intro hcur
    rw [splitlinesAux_cons_break hbrk hcr]
    exact hstep cur [c] hcur (Or.inl ⟨c, hbrk, rfl⟩) _ (ih rfl)
  | case7 cur c rest hcr hbrk ih =>
    intro hcur
    rw [Bool.not_eq_true] at hbrk
    rw [splitlinesAux_cons_other hbrk]
    refine ih ?_
    rw [noBreak_cons, hcur, Bool.and_true, Bool.not_eq_true', hbrk]

/-- The lines produced by the splitlines model satisfy the structural
invariant. -/
theorem splitlinesK_SplitInv (s : List Char) : SplitInv (splitlinesK s) :=
  splitlinesAux_SplitInv [] s rfl

theorem modify_cons (name : Line) (sec : Option Line) (h : Line)
    (rest : List Line) :
    modify_lines_from name sec (h :: rest) =
      if is_section_header (stripNulls h) = true then
        stripNulls h ::
          modify_lines_from name (some (section_name (stripNulls h))) rest
      else process_line name sec (stripNulls h) ::
        modify_lines_from name sec rest := rfl

theorem process_line_car0 (name : Line) {sec : Option Line} {l : Line}
    (hsec : sec = some CAR0) (hpre : DRIVER_KEY.isPrefixOf (pyStrip l) = true) :
    process_line name sec l = DRIVER_KEY ++ name ++ ['\n'] := by
  rw [process_line, if_pos ⟨hsec, hpre⟩]

theorem process_line_remote (name : Line) {sec : Option Line} {l : Line}
    (hsec : sec = some REMOTE_SECTION)
    (hpre : NAME_KEY.isPrefixOf (pyStrip l) = true) :
    process_line name sec l = NAME_KEY ++ name ++ ['\n'] := by
  rw [process_line, if_neg, if_pos ⟨hsec, hpre⟩]
  rintro ⟨h1, -⟩
  rw [hsec] at h1
  exact absurd (Option.some_inj.mp h1) (by decide)

theorem lineTarget_elim {sec : Option Line} {l : Line}
    (h : lineTarget sec l = true) :
    (sec = some CAR0 ∧ DRIVER_KEY.isPrefixOf (pyStrip l) = true) ∨
    (sec = some REMOTE_SECTION ∧ NAME_KEY.isPrefixOf (pyStrip l) = true) := by
  rw [lineTarget] at h
  simp only [Bool.or_eq_true, Bool.and_eq_true, decide_eq_true_eq] at h
  exact h

theorem is_section_header_congr {l1 l2 : Line} (h : pyStrip l1 = pyStrip l2) :
    is_section_header l1 = is_section_header l2 := by
  rw [is_section_header, is_section_header, h]

theorem section_name_congr {l1 l2 : Line} (h : pyStrip l1 = pyStrip l2) :
    section_name l1 = section_name l2 := by
  rw [section_name, section_name, h]

theorem lineTarget_congr (sec : Option Line) {l1 l2 : Line}
    (h : pyStrip l1 = pyStrip l2) : lineTarget sec l1 = lineTarget sec l2 := by
  rw [lineTarget, lineTarget, h]

theorem term_spaces {t : Line}
    (ht : (∃ c, isBreakChar c = true ∧ t = [c]) ∨ t = ['\r', '\n']) :
    ∀ c ∈ t, isPySpace c = true := by
  rcases ht with ⟨c, hc, rfl⟩ | rfl
  · intro d hd
    rw [List.mem_singleton] at hd
    subst hd
    exact break_space hc
  · decide

theorem term_strip {t : Line}
    (ht : (∃ c, isBreakChar c = true ∧ t = [c]) ∨ t = ['\r', '\n']) :
    stripNulls t = t := by
  rcases ht with ⟨c, hc, rfl⟩ | rfl
  · simp [stripNulls, List.filter, break_not_null hc]
  · decide

theorem term_ne_nil {t : Line}
    (ht : (∃ c, isBreakChar c = true ∧ t = [c]) ∨ t = ['\r', '\n']) :
    t ≠ [] := by
  rcases ht with ⟨c, hc, rfl⟩ | rfl <;> simp

theorem driver_repl_matches (name : Line) :
    DRIVER_KEY.isPrefixOf (pyStrip (stripNulls (DRIVER_KEY ++ name ++ ['\n'])))
      = true := by
  have h1 : stripNulls (DRIVER_KEY ++ name ++ ['\n']) =
      DRIVER_KEY ++ (stripNulls name ++ ['\n']) := by
    rw [stripNulls_append, stripNulls_append,
      show stripNulls DRIVER_KEY = DRIVER_KEY from by decide,
      show stripNulls (['\n'] : Line) = ['\n'] from by decide, List.append_assoc]
  rw [h1, pyStrip_driver_append]
  exact isPrefixOf_append_self _ _

theorem namek_repl_matches (name : Line) :
    NAME_KEY.isPrefixOf (pyStrip (stripNulls (NAME_KEY ++ name ++ ['\n'])))
      = true := by
  have h1 : stripNulls (NAME_KEY ++ name ++ ['\n']) =
      NAME_KEY ++ (stripNulls name ++ ['\n']) := by
    rw [stripNulls_append, stripNulls_append,
      show stripNulls NAME_KEY = NAME_KEY from by decide,
      show stripNulls (['\n'] : Line) = ['\n'] from by decide, List.append_assoc]
  rw [h1, pyStrip_namek_append]
  exact isPrefixOf_append_self _ _

/-- A rewritten DRIVER_NAME line is a fixed point of the scan step in CAR_0
context: it is not a header and rewrites to itself. -/
theorem driver_repl_stable (name : Line) {sec : Option Line}
    (hsec : sec = some CAR0) :
    is_section_header (stripNulls (DRIVER_KEY ++ name ++ ['\n'])) = false ∧
    process_line name sec (stripNulls (DRIVER_KEY ++ name ++ ['\n'])) =
      DRIVER_KEY ++ name ++ ['\n'] :=
  ⟨not_header_of_driver (driver_repl_matches name),
   process_line_car0 name hsec (driver_repl_matches name)⟩

/-- A rewritten NAME line is a fixed point of the scan step in REMOTE
context. -/
theorem namek_repl_stable (name : Line) {sec : Option Line}
    (hsec : sec = some REMOTE_SECTION) :
    is_section_header (stripNulls (NAME_KEY ++ name ++ ['\n'])) = false ∧
    process_line name sec (stripNulls (NAME_KEY ++ name ++ ['\n'])) =
      NAME_KEY ++ name ++ ['\n'] :=
  ⟨not_header_of_namek (namek_repl_matches name),
   process_line_remote name hsec (namek_repl_matches name)⟩

theorem head?_append_left {a : Line} (b : Line) (h : a ≠ []) :
    (a ++ b).head? = a.head? := by
  cases a with
  | nil => exact absurd rfl h
  | cons c as => rfl

theorem noBreak_head_ne_lf {x : Line} (hx : noBreak x = true) :
    x.head? ≠ some '\n' := by
  cases x with
  | nil => simp
  | cons c xs =>
    have := not_break_ne (noBreak_mem hx (List.mem_cons_self c xs))
    simp [this.1]

theorem stripNulls_term_ne_nil {b t : Line}
    (ht : (∃ c, isBreakChar c = true ∧ t = [c]) ∨ t = ['\r', '\n']) :
    stripNulls (b ++ t) ≠ [] := by
  rw [stripNulls_append, term_strip ht]
  intro hc
  rw [List.append_eq_nil] at hc
  exact term_ne_nil ht hc.2

/-- If the text of a patched suffix starts with a bare LF, the suffix's
first raw line was an all-null body terminated by LF, the scan emits it as
the single-character LF line, and the section context is unchanged. -/
theorem join_modify_head (name : Line) {ls : List Line} {sec : Option Line}
    (hinv : SplitInv ls)
    (hhead : (modify_lines_from name sec ls).flatten.head? = some '\n') :
    ∃ z ls2, ls = (z ++ ['\n']) :: ls2 ∧ stripNulls z = [] ∧ SplitInv ls2 ∧
      modify_lines_from name sec ls =
        ['\n'] :: modify_lines_from name sec ls2 := by
  cases hinv with
  | nil => simp [modify_lines_from] at hhead
  | single b hb hne =>
    exfalso
    rw [modify_cons] at hhead
    by_cases hh : is_section_header (stripNulls b) = true
    · rw [if_pos hh] at hhead
      rw [show modify_lines_from name
          (some (section_name (stripNulls b))) [] = [] from rfl] at hhead
      simp only [List.flatten_cons, List.flatten_nil, List.append_nil] at hhead
      exact noBreak_head_ne_lf (noBreak_stripNulls hb) hhead
    · rw [if_neg hh] at hhead
      rw [show modify_lines_from name sec [] = [] from rfl] at hhead
      simp only [List.flatten_cons, List.flatten_nil, List.append_nil] at hhead
      cases htg : lineTarget sec (stripNulls b) with
      | true =>
        rcases lineTarget_elim htg with ⟨hsec, hpre⟩ | ⟨hsec, hpre⟩
        · rw [process_line_car0 name hsec hpre] at hhead
          rw [show (DRIVER_KEY ++ name ++ ['\n']).head? = some 'D' from rfl] at hhead
          exact absurd hhead (by decide)
        · rw [process_line_remote name hsec hpre] at hhead
          rw [show (NAME_KEY ++ name ++ ['\n']).head? = some 'N' from rfl] at hhead
          exact absurd hhead (by decide)
      | false =>
        rw [process_line_of_no_target name htg] at hhead
        exact noBreak_head_ne_lf (noBreak_stripNulls hb) hhead
  | cons b t ls2 hb hterm hinv2 =>
    have hsb : stripNulls (b ++ t) = stripNulls b ++ t := by
      rw [stripNulls_append, term_strip hterm]
    rw [modify_cons] at hhead ⊢
    by_cases hh : is_section_header (stripNulls (b ++ t)) = true
    · exfalso
      rw [if_pos hh] at hhead
      rw [List.flatten_cons,
        head?_append_left _ (stripNulls_term_ne_nil hterm)] at hhead
      rw [hsb] at hhead hh
      cases hsbn : stripNulls b with
      | nil =>
        rw [hsbn, List.nil_append] at hhead hh
        have hps : pyStrip t = [] := by
          have := pyStrip_append_spaces (term_spaces hterm) []
          simpa using this
        rw [is_section_header, hps] at hh
        simp [List.isPrefixOf] at hh
      | cons c bs =>
        rw [hsbn, List.cons_append] at hhead
        have hcmem : c ∈ stripNulls b := by
          rw [hsbn]; exact List.mem_cons_self _ _
        have hcb := noBreak_mem (noBreak_stripNulls hb) hcmem
        simp only [List.head?_cons, Option.some_inj] at hhead
        exact (not_break_ne hcb).1 hhead
    · rw [if_neg hh] at hhead ⊢
      cases htg : lineTarget sec (stripNulls (b ++ t)) with
      | true =>
        exfalso
        rcases lineTarget_elim htg with ⟨hsec, hpre⟩ | ⟨hsec, hpre⟩
        · rw [process_line_car0 name hsec hpre, List.flatten_cons,
            head?_append_left _ (by simp [DRIVER_KEY, List.append_assoc]),
            show (DRIVER_KEY ++ name ++ ['\n']).head? = some 'D' from rfl] at hhead
          exact absurd hhead (by decide)
        · rw [process_line_remote name hsec hpre, List.flatten_cons,
            head?_append_left _ (by simp [NAME_KEY, List.append_assoc]),
            show (NAME_KEY ++ name ++ ['\n']).head? = some 'N' from rfl] at hhead
          exact absurd hhead (by decide)
      | false =>
        rw [process_line_of_no_target name htg] at hhead ⊢
        rw [List.flatten_cons,
          head?_append_left _ (stripNulls_term_ne_nil hterm)] at hhead
        rw [hsb] at hhead ⊢
        cases hsbn : stripNulls b with
        | cons c bs =>
          exfalso
          rw [hsbn, List.cons_append] at hhead
          have hcmem : c ∈ stripNulls b := by
            rw [hsbn]; exact List.mem_cons_self _ _
          have hcb := noBreak_mem (noBreak_stripNulls hb) hcmem
          simp only [List.head?_cons, Option.some_inj] at hhead
          exact (not_break_ne hcb).1 hhead
        | nil =>
          rw [hsbn, List.nil_append] at hhead
          have htn : t = ['\n'] := by
            rcases hterm with ⟨c, hc, rfl⟩ | rfl
            · rw [show ([c] : Line).head? = some c from rfl,
                Option.some_inj] at hhead
              rw [hhead]
            · exact absurd hhead (by decide)
          subst htn
          exact ⟨b, ls2, rfl, hsbn, hinv2, rfl⟩

theorem splitlinesK_repl {k name : Line} (hk : noBreak k = true)
    (hname : noBreak name = true) (T : Line) :
    splitlinesK ((k ++ name ++ ['\n']) ++ T) =
      (k ++ name ++ ['\n']) :: splitlinesK T := by
  have h1 : (k ++ name ++ ['\n']) ++ T = (k ++ name) ++ '\n' :: T := by simp
  rw [h1, splitlinesK_body_break (by rw [noBreak_append, hk, hname]; rfl)
    (by decide) (by decide)]

theorem modify_nil (name : Line) (sec : Option Line) :
    modify_lines_from name sec [] = [] := rfl

/-- The head-kind taxonomy of one scan step, packaged for reuse: every line
is processed as a header, as one of the two rewrites, or is copied. -/
theorem modify_step_cases (name : Line) (sec : Option Line) (l : Line) :
    (is_section_header (stripNulls l) = true ∧
      ∀ rest, modify_lines_from name sec (l :: rest) =
        stripNulls l ::
          modify_lines_from name (some (section_name (stripNulls l))) rest) ∨
    (is_section_header (stripNulls l) = false ∧
      ((sec = some CAR0 ∧
          process_line name sec (stripNulls l) =
            DRIVER_KEY ++ name ++ ['\n']) ∨
        (sec = some REMOTE_SECTION ∧
          process_line name sec (stripNulls l) =
            NAME_KEY ++ name ++ ['\n'])) ∧
      ∀ rest, modify_lines_from name sec (l :: rest) =
        process_line name sec (stripNulls l) ::
          modify_lines_from name sec rest) ∨
    (is_section_header (stripNulls l) = false ∧
      lineTarget sec (stripNulls l) = false ∧
      process_line name sec (stripNulls l) = stripNulls l ∧
      ∀ rest, modify_lines_from name sec (l :: rest) =
        stripNulls l :: modify_lines_from name sec rest) := by
  by_cases hh : is_section_header (stripNulls l) = true
  · exact Or.inl ⟨hh, fun rest => by rw [modify_cons, if_pos hh]⟩
  · rw [Bool.not_eq_true] at hh
    cases htg : lineTarget sec (stripNulls l) with
    | true =>
      refine Or.inr (Or.inl ⟨hh, ?_, fun rest => by
        rw [modify_cons, if_neg (by rw [hh]; exact Bool.false_ne_true)]⟩)
      rcases lineTarget_elim htg with ⟨hsec, hpre⟩ | ⟨hsec, hpre⟩
      · exact Or.inl ⟨hsec, process_line_car0 name hsec hpre⟩
      · exact Or.inr ⟨hsec, process_line_remote name hsec hpre⟩
    | false =>
      refine Or.inr (Or.inr ⟨hh, rfl, process_line_of_no_target name htg,
        fun rest => by
          rw [modify_cons, if_neg (by rw [hh]; exact Bool.false_ne_true),
            process_line_of_no_target name htg]⟩)

/-- Core of idempotence: re-splitting the text produced by one scan yields a
line list that a second scan (from the same starting context) maps to
itself, provided the injected name contains no line break. -/
theorem modify_stable (name : Line) (hname : noBreak name = true) :
    ∀ (n : ℕ) (ls : List Line), ls.length ≤ n → ∀ (sec : Option Line),
      SplitInv ls →
      modify_lines_from name sec
          (splitlinesK (modify_lines_from name sec ls).flatten) =
        splitlinesK (modify_lines_from name sec ls).flatten := by
  intro n
  induction n with
  | zero =>
    intro ls hlen sec hinv
    have h0 : ls = [] := List.eq_nil_of_length_eq_zero (Nat.le_zero.mp hlen)
    subst h0
    rw [modify_nil]
    simp [splitlinesK, splitlinesAux, modify_nil]
  | succ n ih =>
    intro ls hlen sec hinv
    cases hinv with
    | nil =>
      rw [modify_nil]
      simp [splitlinesK, splitlinesAux, modify_nil]
    | single b hb hne =>
      have hsbnb : noBreak (stripNulls b) = true := noBreak_stripNulls hb
      rcases modify_step_cases name sec b with ⟨hh, hstep⟩ |
        ⟨hh, hrepl, hstep⟩ | ⟨hh, htg, hproc, hstep⟩
      · rw [hstep [], modify_nil]
        simp only [List.flatten_cons, List.flatten_nil, List.append_nil]
        rw [splitlinesK_noBreak hsbnb]
        by_cases hbn : stripNulls b = []
        · rw [if_pos hbn, modify_nil]
        · rw [if_neg hbn, modify_cons, stripNulls_stable, if_pos hh,
            modify_nil]
      · rcases hrepl with ⟨hsec, hp⟩ | ⟨hsec, hp⟩
        · rw [hstep [], modify_nil, hp]
          simp only [List.flatten_cons, List.flatten_nil, List.append_nil]
          rw [show (DRIVER_KEY ++ name ++ ['\n'] : Line) =
              (DRIVER_KEY ++ name ++ ['\n']) ++ ([] : Line) from
              (List.append_nil _).symm,
            splitlinesK_repl (by decide) hname,
            show splitlinesK ([] : List Char) = [] from rfl,
            modify_cons,
            if_neg (by rw [(driver_repl_stable name hsec).1]
                       exact Bool.false_ne_true),
            (driver_repl_stable name hsec).2, modify_nil]
        · rw [hstep [], modify_nil, hp]
          simp only [List.flatten_cons, List.flatten_nil, List.append_nil]
          rw [show (NAME_KEY ++ name ++ ['\n'] : Line) =
              (NAME_KEY ++ name ++ ['\n']) ++ ([] : Line) from
              (List.append_nil _).symm,
            splitlinesK_repl (by decide) hname,
            show splitlinesK ([] : List Char) = [] from rfl,
            modify_cons,
            if_neg (by rw [(namek_repl_stable name hsec).1]
                       exact Bool.false_ne_true),
            (namek_repl_stable name hsec).2, modify_nil]
      · rw [hstep [], modify_nil]
        simp only [List.flatten_cons, List.flatten_nil, List.append_nil]
        rw [splitlinesK_noBreak hsbnb]
        by_cases hbn : stripNulls b = []
        · rw [if_pos hbn, modify_nil]
        · rw [if_neg hbn, modify_cons, stripNulls_stable,
            if_neg (by rw [hh]; exact Bool.false_ne_true),
            process_line_of_no_target name htg, modify_nil]
    | cons b t ls2 hb hterm hinv2 =>
      have hlen2 : ls2.length ≤ n := by
        rw [List.length_cons] at hlen
        omega
      have hsbt : stripNulls (b ++ t) = stripNulls b ++ t := by
        rw [stripNulls_append, term_strip hterm]
      have hsbnb : noBreak (stripNulls b) = true := noBreak_stripNulls hb
      rcases modify_step_cases name sec (b ++ t) with ⟨hh, hstep⟩ |
        ⟨hh, hrepl, hstep⟩ | ⟨hh, htg, hproc, hstep⟩
      · -- header line
        rw [hstep ls2, List.flatten_cons, hsbt]
        rcases hterm with ⟨c, hc, htn⟩ | htn
        · subst htn
          by_cases hcr : c = '\r'
          swap
          · rw [show stripNulls b ++ [c] ++
                  (modify_lines_from name
                    (some (section_name (stripNulls b ++ [c]))) ls2).flatten =
                stripNulls b ++ c ::
                  (modify_lines_from name
                    (some (section_name (stripNulls b ++ [c]))) ls2).flatten
                from by simp,
              splitlinesK_body_break hsbnb hc hcr, ← hsbt, modify_cons,
              stripNulls_stable, if_pos hh, ih ls2 hlen2 _ hinv2]
          subst hcr
          by_cases hT : (modify_lines_from name
              (some (section_name (stripNulls b ++ ['\r']))) ls2).flatten.head?
                = some '\n'
          · obtain ⟨z, ls3, hls2eq, hz, hinv3, hmod⟩ :=
              join_modify_head name hinv2 hT
            have hlen3 : ls3.length ≤ n := by
              rw [hls2eq, List.length_cons] at hlen2
              omega
            rw [hmod, List.flatten_cons]
            rw [show stripNulls b ++ ['\r'] ++ (['\n'] ++
                  (modify_lines_from name
                    (some (section_name (stripNulls b ++ ['\r']))) ls3).flatten) =
                stripNulls b ++ '\r' :: '\n' ::
                  (modify_lines_from name
                    (some (section_name (stripNulls b ++ ['\r']))) ls3).flatten
                from by simp,
              splitlinesK_body_crlf hsbnb]
            have hps : pyStrip (stripNulls b ++ ['\r', '\n']) =
                pyStrip (stripNulls b ++ ['\r']) := by
              rw [pyStrip_append_spaces (by decide) (stripNulls b),
                pyStrip_append_spaces (by decide) (stripNulls b)]
            have hsm : stripNulls (stripNulls b ++ ['\r', '\n']) =
                stripNulls b ++ ['\r', '\n'] := by
              rw [stripNulls_append, stripNulls_stable,
                show stripNulls (['\r', '\n'] : Line) = ['\r', '\n'] from
                  by decide]
            rw [modify_cons, hsm,
              if_pos (by rw [is_section_header_congr hps, ← hsbt]; exact hh),
              section_name_congr hps, ih ls3 hlen3 _ hinv3]
          · rw [show stripNulls b ++ ['\r'] ++
                  (modify_lines_from name
                    (some (section_name (stripNulls b ++ ['\r']))) ls2).flatten =
                stripNulls b ++ '\r' ::
                  (modify_lines_from name
                    (some (section_name (stripNulls b ++ ['\r']))) ls2).flatten
                from by simp,
              splitlinesK_body_cr hsbnb hT, ← hsbt, modify_cons,
              stripNulls_stable, if_pos hh, ih ls2 hlen2 _ hinv2]
        · subst htn
          rw [show stripNulls b ++ ['\r', '\n'] ++
                (modify_lines_from name
                  (some (section_name (stripNulls b ++ ['\r', '\n']))) ls2).flatten =
              stripNulls b ++ '\r' :: '\n' ::
                (modify_lines_from name
                  (some (section_name (stripNulls b ++ ['\r', '\n']))) ls2).flatten
              from by simp,
            splitlinesK_body_crlf hsbnb, ← hsbt, modify_cons, stripNulls_stable,
            if_pos hh, ih ls2 hlen2 _ hinv2]
      · -- rewritten key line: the emitted line ends with LF, so no merge
        rcases hrepl with ⟨hsec, hp⟩ | ⟨hsec, hp⟩
        · rw [hstep ls2, hp, List.flatten_cons,
            splitlinesK_repl (by decide) hname, modify_cons,
            if_neg (by rw [(driver_repl_stable name hsec).1]
                       exact Bool.false_ne_true),
            (driver_repl_stable name hsec).2, ih ls2 hlen2 sec hinv2]
        · rw [hstep ls2, hp, List.flatten_cons,
            splitlinesK_repl (by decide) hname, modify_cons,
            if_neg (by rw [(namek_repl_stable name hsec).1]
                       exact Bool.false_ne_true),
            (namek_repl_stable name hsec).2, ih ls2 hlen2 sec hinv2]
      · -- copied line
        rw [hstep ls2, List.flatten_cons, hsbt]
        rcases hterm with ⟨c, hc, htn⟩ | htn
        · subst htn
          by_cases hcr : c = '\r'
          swap
          · rw [show stripNulls b ++ [c] ++
                  (modify_lines_from name sec ls2).flatten =
                stripNulls b ++ c ::
                  (modify_lines_from name sec ls2).flatten from by simp,
              splitlinesK_body_break hsbnb hc hcr, ← hsbt, modify_cons,
              stripNulls_stable,
              if_neg (by rw [hh]; exact Bool.false_ne_true),
              process_line_of_no_target name htg, ih ls2 hlen2 sec hinv2]
          subst hcr
          by_cases hT : (modify_lines_from name sec ls2).flatten.head?
              = some '\n'
          · obtain ⟨z, ls3, hls2eq, hz, hinv3, hmod⟩ :=
              join_modify_head name hinv2 hT
            have hlen3 : ls3.length ≤ n := by
              rw [hls2eq, List.length_cons] at hlen2
              omega
            rw [hmod, List.flatten_cons]
            rw [show stripNulls b ++ ['\r'] ++ (['\n'] ++
                  (modify_lines_from name sec ls3).flatten) =
                stripNulls b ++ '\r' :: '\n' ::
                  (modify_lines_from name sec ls3).flatten from by simp,
              splitlinesK_body_crlf hsbnb]
            have hps : pyStrip (stripNulls b ++ ['\r', '\n']) =
                pyStrip (stripNulls (b ++ ['\r'])) := by
              rw [hsbt,
                pyStrip_append_spaces (by decide) (stripNulls b),
                pyStrip_append_spaces (by decide) (stripNulls b)]
            have hsm : stripNulls (stripNulls b ++ ['\r', '\n']) =
                stripNulls b ++ ['\r', '\n'] := by
              rw [stripNulls_append, stripNulls_stable,
                show stripNulls (['\r', '\n'] : Line) = ['\r', '\n'] from
                  by decide]
            rw [modify_cons, hsm,
              if_neg (by rw [is_section_header_congr hps, hh]
                         exact Bool.false_ne_true),
              process_line_of_no_target name
                (by rw [lineTarget_congr sec hps]; exact htg),
              ih ls3 hlen3 sec hinv3]
          · rw [show stripNulls b ++ ['\r'] ++
                  (modify_lines_from name sec ls2).flatten =
                stripNulls b ++ '\r' ::
                  (modify_lines_from name sec ls2).flatten from by simp,
              splitlinesK_body_cr hsbnb hT, ← hsbt, modify_cons,
              stripNulls_stable,
              if_neg (by rw [hh]; exact Bool.false_ne_true),
              process_line_of_no_target name htg, ih ls2 hlen2 sec hinv2]
        · subst htn
          rw [show stripNulls b ++ ['\r', '\n'] ++
                (modify_lines_from name sec ls2).flatten =
              stripNulls b ++ '\r' :: '\n' ::
                (modify_lines_from name sec ls2).flatten from by simp,
            splitlinesK_body_crlf hsbnb, ← hsbt, modify_cons, stripNulls_stable,
            if_neg (by rw [hh]; exact Bool.false_ne_true),
            process_line_of_no_target name htg, ih ls2 hlen2 sec hinv2]

/-- Claim C7 is false as stated: with the player name A-LF-B (a name
containing a newline), patching a minimal CAR_0 document twice does not
equal patching it once — the re-read splits the injected newline into a new
line, which the second pass then duplicates.  The same happens with the
name A-VT-B, since splitlines also breaks at a vertical tab: idempotence
fails for a name containing any of the splitlines break characters. -/
theorem C7_counterexample :
    patch_text c7name (patch_text c7name c7input) ≠
      patch_text c7name c7input ∧
    patch_text c7nameVT (patch_text c7nameVT c7input) ≠
      patch_text c7nameVT c7input := by decide

/-- Claim C7 (amended): for every input document and every player name that
contains none of the characters at which Python splitlines breaks a line
(LF, VT, FF, CR, FS, GS, RS, NEL, LS, PS), the patch is idempotent:
re-reading the first application's output and patching it again reproduces
that output exactly. -/
theorem C7_idempotent_no_break (name : Line) (s : List Char)
    (hname : noBreak name = true) :
    patch_text name (patch_text name s) = patch_text name s := by
  unfold patch_text modify_lines
  rw [modify_stable name hname (splitlinesK s).length (splitlinesK s) le_rfl
      none (splitlinesK_SplitInv s),
    flatten_splitlinesK]

/-- Witness for the amended C7 at a break-free name and the example
document. -/
theorem C7_idempotent_no_break_witness :
    patch_text bobName (patch_text bobName c1doc) =
      patch_text bobName c1doc :=
  C7_idempotent_no_break bobName c1doc (by decide)

end Theorems
